import Mathlib

/-!
Verification of the `lode` batched-loading and memoization engine.

This file shallowly embeds the core of the Go package `lode` (the binder
`InitHandles` / `toPtrSlice` / `bindPtrSlice` / `batchRanges`, the memoizing
`Resolve` engine with `applyResolver`, the relation engine `Many` / `One`, and
`Handle.Reset`) and proves the frozen claims about it.

Modelling conventions:
- A Go model pointer value (`*T` for a model type `T` embedding `Handle`) is
  `GoModel := Option ModelId`; `none` is the nil pointer.
- Pointer identity of `loaderState` values is modelled by allocating states at
  increasing `StateId` indices in a `World`; the `World` carries every Handle
  (the per-model `core` field) and every allocated state.
- Go dynamic result typing (`any` holding a `ResolverFunc[Model, Result]`) is
  modelled by a small closed universe `RTy` of result types together with a
  type-tagged resolver; the failed type assertion in `applyResolver` becomes a
  tag comparison.
- The Go code is concurrency-safe (`sync.Map`, `sync.Once`,
  `atomic.Pointer`); we embed the sequential interleaving semantics: a
  builder entry observed between calls is either absent or built, and
  `Resolve` is a state transformer that additionally reports how many times
  it invoked the user `Build` function.
- Errors are an inductive `LErr`; upstream errors from Build/Fetch are
  carried verbatim as values of this type.
-/

namespace Lode

/-- Identity of a model value (the address of a Go model). -/
abbrev ModelId := Nat

/-- Identity of a `loaderState` allocation (stands for its pointer). -/
abbrev StateId := Nat

/-- A Go model pointer: `none` is the nil `*T`. -/
abbrev GoModel := Option ModelId

/-- The error taxonomy of the package.  `upstream` carries an opaque error
value produced by a user Build/Fetch function. -/
inductive LErr where
  /-- `errNoLoader`: model not initialized with loader. -/
  | noLoader
  /-- internal error: resolver not stored (nil holder). -/
  | notStored
  /-- models is not a slice of the caller model type. -/
  | modelsNotSlice
  /-- key used with incompatible result type. -/
  | typeMismatch (key : String)
  /-- an error returned by a user Build or Fetch function. -/
  | upstream (code : Nat)
deriving DecidableEq, Repr

/-- Closed universe of result types appearing at `Resolve` call sites. -/
inductive RTy where
  | rNat
  | rStr
  | rList
deriving DecidableEq, Repr

/-- Interpretation of a result type. -/
def RTy.interp : RTy → Type
  | .rNat => Nat
  | .rStr => String
  | .rList => List Nat

/-- The Go zero value of a result type (`var emptyResult Result`). -/
def RTy.zero : (t : RTy) → t.interp
  | .rNat => (0 : Nat)
  | .rStr => ("" : String)
  | .rList => ([] : List Nat)

/-- A stored resolver: a `ResolverFunc[Model, Result]` put into an `any` slot;
the tag records the `Result` type it was built at. -/
def Resolver := (t : RTy) × (GoModel → t.interp)

/-- `resolverHolder`: the published outcome of one builder execution. -/
structure resolverHolder where
  resolver : Option Resolver
  err : Option LErr

/-- `loaderState`: the Batch State shared by the models of one partition.
`mty` is a tag for the Go type of the `models` slice (`[]*T`), used by the
`loader.models.([]Model)` assertion in `Resolve`.  `engineBatch` is the
batch size of the back-referenced engine. -/
structure loaderState where
  models : List GoModel
  mty : Nat
  engineBatch : Nat
  entries : List (String × resolverHolder)

instance : Inhabited loaderState := ⟨⟨[], 0, 0, []⟩⟩

/-- The mutable world: every Handle (`handles`), every allocated
`loaderState` (`states`), and the allocation cursor (`nextState`).
`handles m = none` means the Handle embedded in model `m` has a nil `core`. -/
structure World where
  handles : ModelId → Option StateId
  states : Nat → loaderState
  nextState : Nat

/-- `rangeIndex` from the Go source. -/
structure rangeIndex where
  startInclusive : Nat
  endExclusive : Nat
deriving DecidableEq, Repr

/-- The loop body of `batchRanges`: `for i := 0; i < n; i += batchSize`.
The loop is embedded with explicit fuel; `batchRanges` supplies fuel `n`,
which is enough for any positive batch size. -/
def batchLoop (n b : Nat) : Nat → Nat → List rangeIndex
  | 0, _ => []
  | fuel + 1, i =>
    if i < n then ⟨i, min (i + b) n⟩ :: batchLoop n b fuel (i + b) else []

/-- `batchRanges(n, batchSize)` from the Go source: contiguous chunks
`[i, min(i+batchSize, n))` starting at multiples of `batchSize`. -/
def batchRanges (n b : Nat) : List rangeIndex :=
  if n = 0 then [] else batchLoop n b n 0

/-! ## The resolve engine -/

/-- `applyResolver` from the Go source: `nil` holder is an internal error, a
stored error is replayed, a stored resolver of the wrong result type is a
type-mismatch error, otherwise the stored resolver is applied to the
caller model. -/
def applyResolver (t : RTy) (h : Option resolverHolder) (cacheKey : String)
    (model : GoModel) : Except LErr t.interp :=
  match h with
  | none => .error .notStored
  | some hh =>
    match hh.err with
    | some e => .error e
    | none =>
      match hh.resolver with
      | none => .error (.typeMismatch cacheKey)
      | some r =>
        if ht : r.1 = t then .ok (ht ▸ r.2 model)
        else .error (.typeMismatch cacheKey)

/-- The outcome of a user `Build` function: an optional resolver function for
the expected result type, and an optional error (Go returns both slots). -/
def BuildFn (t : RTy) := List GoModel → Option (GoModel → t.interp) × Option LErr

/-- `ResolveSpec` from the Go source.  `mty` is the tag of the Go type
`[]Model` at the call site, compared with the tag of the bound models slice
by the `loader.models.([]Model)` assertion. -/
structure ResolveSpec (t : RTy) where
  cacheKey : String
  model : GoModel
  mty : Nat
  build : BuildFn t

/-- Result of a `Resolve` call: the returned value-or-error, the world after
the call, and the number of times the user `Build` function ran during the
call (0 or 1). -/
structure ResolveOut (t : RTy) where
  result : Except LErr t.interp
  world : World
  builds : Nat

/-- Replace the entry list of state `sid`. -/
def setEntries (w : World) (sid : Nat) (es : List (String × resolverHolder)) :
    World :=
  { w with
    states := fun s => if s = sid then { w.states s with entries := es } else w.states s }

/-- `Resolve` from the Go source, sequential interleaving semantics.

Go control flow embedded here: the `isNil(spec.Model)` short circuit; the
`lodeState() == nil` check (`errNoLoader`); `resolverEntries.LoadOrStore`
plus `ready.Load()` (between calls an entry is present exactly when it is
built, so the lookup of a built holder is the hit path); `once.Do` running
the `loader.models.([]Model)` assertion and then the user `Build`, and
publishing the holder; finally `applyResolver` on the published holder. -/
def Resolve {t : RTy} (w : World) (spec : ResolveSpec t) : ResolveOut t :=
  match spec.model with
  | none => ⟨.ok t.zero, w, 0⟩
  | some m =>
    match w.handles m with
    | none => ⟨.error .noLoader, w, 0⟩
    | some sid =>
      let st := w.states sid
      match st.entries.lookup spec.cacheKey with
      | some h => ⟨applyResolver t (some h) spec.cacheKey spec.model, w, 0⟩
      | none =>
        if st.mty = spec.mty then
          let out := spec.build st.models
          let h : resolverHolder := ⟨out.1.map (fun f => ⟨t, f⟩), out.2⟩
          ⟨applyResolver t (some h) spec.cacheKey spec.model,
            setEntries w sid ((spec.cacheKey, h) :: st.entries), 1⟩
        else
          let h : resolverHolder := ⟨none, some .modelsNotSlice⟩
          ⟨applyResolver t (some h) spec.cacheKey spec.model,
            setEntries w sid ((spec.cacheKey, h) :: st.entries), 0⟩

/-- `Handle.Reset` from the Go source: nil core is a no-op, otherwise the
entry map of the shared state is cleared in place. -/
def Reset (w : World) (m : Nat) : World :=
  match w.handles m with
  | none => w
  | some sid => setEntries w sid []

/-! ## The relation engine (Many / One)

For the relation engine the generic parameters are instantiated with the
concrete carriers used throughout this development: `JoinKey := Nat` and
`Relation := Nat` (a relation value is identified by a number; its join key
is computed by the user `relationKey` function).  The result type of the
underlying `Resolve` call is then `RTy.rList` (`List Nat`). -/

abbrev JoinKey := Nat

abbrev Relation := Nat

/-- `RelationSpec` from the Go source (context elided; `mty` as in
`ResolveSpec`). -/
structure RelationSpec where
  cacheKey : String
  model : GoModel
  mty : Nat
  modelKey : GoModel → Option JoinKey
  relationKey : Relation → JoinKey
  fetch : List JoinKey → Except LErr (List Relation)

/-- The distinct join keys of a batch of models.  The Go code collects the
keys into a `map[JoinKey]struct\x7b\x7d` and then ranges over the map, whose
iteration order is unspecified; the embedding fixes first-occurrence order.
No claim depends on the order of this key set. -/
def distinctKeys (modelKey : GoModel → Option JoinKey) (models : List GoModel) :
    List JoinKey :=
  models.foldl
    (fun acc m =>
      match modelKey m with
      | some k => if k ∈ acc then acc else acc ++ [k]
      | none => acc)
    []

/-- The `grouped` map built by the Build closure of `Many`:
`grouped[relationKey r] = append(grouped[relationKey r], r)` over the fetched
relations in order, embedded as a total function with `[]` for missing keys
(a Go map lookup of a missing key yields the nil slice). -/
def grouped (relationKey : Relation → JoinKey) (rels : List Relation) :
    JoinKey → List Relation :=
  rels.foldl
    (fun g r => fun k => if k = relationKey r then g k ++ [r] else g k)
    (fun _ => [])

/-- The Build closure `queryFunc` of `Many`: collect the distinct present
join keys of the whole batch, fetch once, group by `relationKey`, and yield
the per-parent lookup resolver.

The Go closure also calls `loader.engine.InitHandles(relations)` between the
fetch and the grouping; with plain-value relations (no embedded Handle, as
here) that call binds nothing, and it never changes the fetched slice, so it
is a no-op in this embedding. -/
def manyBuild (spec : RelationSpec) : BuildFn .rList := fun models =>
  let keys := distinctKeys spec.modelKey models
  match spec.fetch keys with
  | .error e => (none, some e)
  | .ok rels =>
    let g := grouped spec.relationKey rels
    (some (fun m =>
      match spec.modelKey m with
      | some id => g id
      | none => []), none)

/-- `Many` from the Go source: nil-model short circuit, absent-join-key short
circuit, `lodeState() == nil` check, then delegation to `Resolve` with the
`queryFunc` Build closure. -/
def Many (w : World) (spec : RelationSpec) : ResolveOut .rList :=
  match spec.model with
  | none => ⟨.ok [], w, 0⟩
  | some m =>
    match spec.modelKey spec.model with
    | none => ⟨.ok [], w, 0⟩
    | some _ =>
      match w.handles m with
      | none => ⟨.error .noLoader, w, 0⟩
      | some _ =>
        let out := Resolve w
          ⟨spec.cacheKey, spec.model, spec.mty, manyBuild spec⟩
        match out.result with
        | .error e => ⟨.error e, out.world, out.builds⟩
        | .ok rels => ⟨.ok rels, out.world, out.builds⟩

/-- `One` from the Go source: `Many`, then the first element, or the zero
relation value when the list is empty. -/
def One (w : World) (spec : RelationSpec) :
    Except LErr Relation × World × Nat :=
  let out := Many w spec
  match out.result with
  | .error e => (.error e, out.world, out.builds)
  | .ok rels =>
    match rels with
    | [] => (.ok 0, out.world, out.builds)
    | r :: _ => (.ok r, out.world, out.builds)

/-! ## The binder

`InitHandles` accepts an `any`; the shapes it distinguishes through
`reflect` are embedded as the inductive `GoInput`:

- `invalid`: untyped nil or any non-pointer, non-slice value
  (`reflect.ValueOf` invalid, numbers, maps, arrays, functions, bare struct
  values, slices of non-model element type, ...).  For all of these the Go
  code either fails the `toPtrSlice` shape checks or finds no `hasState`
  element, and binds nothing; they are collapsed into one constructor.
- `modelPtr m`: a single `*T` where `*T` implements `hasState` (a model
  pointer); `none` is the nil pointer.
- `refTo v`: a pointer to a pointer or to a slice (one more level of
  indirection); `none` is the nil outer pointer.  Note `**T` does NOT
  implement `hasState` (Go method sets are not promoted through two
  pointer levels), so a `refTo (modelPtr _)` only reaches the generic
  pointer-unwrapping loop.
- `ptrSlice ps`: a `[]*T` of model pointers, or a named alias of it (the
  alias is stripped by normalization without changing the elements).
- `valSlice ms`: a `[]T` of addressable model values, or a named alias;
  element `i` has address `ms[i]`. -/

inductive GoInput where
  | invalid
  | modelPtr (m : GoModel)
  | refTo (v : Option GoInput)
  | ptrSlice (ps : List GoModel)
  | valSlice (ms : List ModelId)

/-- The pointer-unwrapping loop of `toPtrSlice` after at least one
dereference (the single-model `hasState` branch has already been passed):
keep dereferencing pointers (nil at any level fails), then require a slice
shape. -/
def derefInput : GoInput → Option (List GoModel)
  | .invalid => none
  | .modelPtr _ => none
  | .refTo none => none
  | .refTo (some v) => derefInput v
  | .ptrSlice ps => some ps
  | .valSlice ms => some (ms.map some)

/-- `toPtrSlice` from the Go source: a single non-nil model pointer becomes
the singleton `[]*T`; otherwise pointers are unwrapped to a slice, a slice
of model pointers is used as-is (alias stripped), and a slice of model
values becomes the slice of element addresses.

Note the Go dereferencing loop does not stop at `*T`: given `**T` it
dereferences twice, lands on the struct `T`, which is not a slice, and
gives up. -/
def toPtrSlice : GoInput → Option (List GoModel)
  | .invalid => none
  | .modelPtr none => none
  | .modelPtr (some m) => some [some m]
  | .refTo none => none
  | .refTo (some v) => derefInput v
  | .ptrSlice ps => some ps
  | .valSlice ms => some (ms.map some)

/-- The rebind-decision scan of `bindPtrSlice`: walk the normalized slice,
skipping nil pointers; an unbound model means bind; two models bound to
different states mean bind; otherwise skip.  The accumulator is the first
bound state seen so far. -/
def needBindAux (w : World) : List GoModel → Option StateId → Bool
  | [], _ => false
  | none :: rest, acc => needBindAux w rest acc
  | some m :: rest, acc =>
    match w.handles m with
    | none => true
    | some st =>
      match acc with
      | none => needBindAux w rest (some st)
      | some f => if f = st then needBindAux w rest (some f) else true

def needBind (w : World) (ps : List GoModel) : Bool :=
  needBindAux w ps none

/-- The sub-slice `ps[r.startInclusive : r.endExclusive]`. -/
def sliceOf (ps : List GoModel) (r : rangeIndex) : List GoModel :=
  (ps.drop r.startInclusive).take (r.endExclusive - r.startInclusive)

/-- Point every non-nil model of `sub` at state `sid` (the inner loop of the
binding pass). -/
def setHandles (sid : Nat) (sub : List GoModel) (w : World) : World :=
  sub.foldl
    (fun wa m =>
      match m with
      | none => wa
      | some mid =>
        { wa with handles := fun x => if x = mid then some sid else wa.handles x })
    w

/-- One iteration of the binding loop of `bindPtrSlice`: allocate a fresh
state holding the sub-slice, then point every member at it. -/
def bindOneRange (mty eb : Nat) (ps : List GoModel) (w : World) (r : rangeIndex) :
    World :=
  let sub := sliceOf ps r
  let sid := w.nextState
  setHandles sid sub
    { handles := w.handles
      states := fun s => if s = sid then ⟨sub, mty, eb, []⟩ else w.states s
      nextState := w.nextState + 1 }

/-- `bindPtrSlice` from the Go source: decide whether a (re)bind is needed,
then bind each `batchRanges` chunk to a fresh shared state.  `mty` tags the
Go type of the `[]*T` slice, `eb` is the engine batch size recorded in the
state (the engine back-reference). -/
def bindPtrSlice (w : World) (mty eb : Nat) (ps : List GoModel) (b : Nat) :
    World :=
  if needBind w ps then
    (batchRanges ps.length b).foldl (bindOneRange mty eb ps) w
  else w

/-- `Engine.InitHandles` from the Go source: normalize the input, no-op on
failure or emptiness, otherwise bind.  `b` is the engine batch size. -/
def InitHandles (w : World) (mty b : Nat) (input : GoInput) : World :=
  match toPtrSlice input with
  | none => w
  | some ps => if ps.length = 0 then w else bindPtrSlice w mty b ps b

/-! ## Auxiliary definitions for the statements -/

/-- A sequence of `Resolve` calls against one cache key, threading the world
through; returns the final world, the total number of `Build` executions,
and the list of per-call outcomes. -/
def resolveAll {t : RTy} (w : World) (key : String) (mty : Nat) :
    List (GoModel × BuildFn t) → World × Nat × List (Except LErr t.interp)
  | [] => (w, 0, [])
  | c :: rest =>
    let out := Resolve w ⟨key, c.1, mty, c.2⟩
    let r := resolveAll out.world key mty rest
    (r.1, out.builds + r.2.1, out.result :: r.2.2)

/-- The holder a first `Resolve` call publishes when it runs `bf` against
the batch `models`. -/
def builtHolder {t : RTy} (bf : BuildFn t) (models : List GoModel) :
    resolverHolder :=
  ⟨(bf models).1.map (fun f => ⟨t, f⟩), (bf models).2⟩

/-- The empty world: nothing bound, nothing allocated. -/
def w0 : World := ⟨fun _ => none, fun _ => default, 0⟩

/-- A world with models `0` and `1` bound to the single state `0`. -/
def wPair : World :=
  { handles := fun x => if x = 0 ∨ x = 1 then some 0 else none
    states := fun s => if s = 0 then ⟨[some 0, some 1], 7, 5000, []⟩ else default
    nextState := 1 }

/-- A Build function returning the batch length for every model. -/
def bLen : BuildFn .rNat := fun models => (some (fun _ => models.length), none)

/-- A Build function that fails with upstream error `9`. -/
def bFail : BuildFn .rNat := fun _ => (none, some (.upstream 9))

/-- A Build function at the string result type. -/
def bStr : BuildFn .rStr := fun _ => (some (fun _ => "x"), none)

/-- A world with the single model `0` bound to state `0`, empty cache. -/
def wOne : World :=
  { handles := fun x => if x = 0 then some 0 else none
    states := fun s => if s = 0 then ⟨[some 0], 7, 5000, []⟩ else default
    nextState := 1 }

/-- A published holder carrying upstream error `9`. -/
def holderErr : resolverHolder := ⟨none, some (.upstream 9)⟩

/-- A published holder carrying a string-typed resolver. -/
def holderStr : resolverHolder := ⟨some ⟨.rStr, fun _ => "v"⟩, none⟩

/-- Like `wOne` but with an error outcome cached under key `"k"`. -/
def wErr : World :=
  { handles := fun x => if x = 0 then some 0 else none
    states := fun s =>
      if s = 0 then ⟨[some 0], 7, 5000, [("k", holderErr)]⟩ else default
    nextState := 1 }

/-- Like `wOne` but with a string-typed resolver cached under key `"k"`. -/
def wStr : World :=
  { handles := fun x => if x = 0 then some 0 else none
    states := fun s =>
      if s = 0 then ⟨[some 0], 7, 5000, [("k", holderStr)]⟩ else default
    nextState := 1 }

/-- The per-parent resolver produced by the `Many` Build closure once the
fetch has returned `rels`. -/
def manyResolver (mk : GoModel → Option JoinKey) (rk : Relation → JoinKey)
    (rels : List Relation) : GoModel → List Relation := fun m =>
  match mk m with
  | some id => grouped rk rels id
  | none => []

/-- The holder the `Many` Build closure publishes on a successful fetch. -/
def manyHolder (mk : GoModel → Option JoinKey) (rk : Relation → JoinKey)
    (rels : List Relation) : resolverHolder :=
  ⟨some ⟨.rList, manyResolver mk rk rels⟩, none⟩

/-- A ModelKey function reporting the join key absent for every model. -/
def mkNone : GoModel → Option JoinKey := fun _ => none

/-- A ModelKey function returning the model id itself as join key. -/
def mkId : GoModel → Option JoinKey := fun m =>
  match m with
  | some x => some x
  | none => none

/-- A RelationKey function: the relation value is its own join key. -/
def rkId : Relation → JoinKey := fun r => r

/-- A Fetch function returning a fixed relation list. -/
def fetchTwo : List JoinKey → Except LErr (List Relation) := fun _ =>
  .ok [0, 3, 0]

/-! # Theorems

First the library of helper lemmas about the embedded operations, then one
theorem per claim (with witnesses). -/

/-! ## Chunking arithmetic -/

theorem batchLoop_closed (b : Nat) (hb : 0 < b) :
    ∀ (fuel n i : Nat), n ≤ i + fuel * b →
      batchLoop n b fuel i =
        (List.range ((n - i + b - 1) / b)).map
          (fun j => ⟨i + j * b, min (i + j * b + b) n⟩) := by
  intro fuel
  induction fuel with
  | zero =>
    intro n i h
    have hni : n - i = 0 := by omega
    have : (n - i + b - 1) / b = 0 := by
      apply Nat.div_eq_of_lt; omega
    simp [batchLoop, this]
  | succ fuel ih =>
    intro n i h
    by_cases hin : i < n
    · have hsm : (fuel + 1) * b = fuel * b + b := by ring
      have hrec := ih n (i + b) (by omega)
      have hK : (n - i + b - 1) / b = (n - (i + b) + b - 1) / b + 1 := by
        rcases le_or_lt b (n - i) with hle | hlt
        · have h1 : n - i + b - 1 = n - (i + b) + b - 1 + b := by omega
          rw [h1, Nat.add_div_right _ hb]
        · have h3 : (n - i + b - 1) / b = 1 := by
            apply Nat.div_eq_of_lt_le <;> omega
          have h4 : (n - (i + b) + b - 1) / b = 0 := by
            apply Nat.div_eq_of_lt; omega
          rw [h3, h4]
      rw [batchLoop, if_pos hin, hrec, hK, List.range_succ_eq_map, List.map_cons,
        List.map_map]
      refine congrArg₂ List.cons ?_ ?_
      · simp
      · apply List.map_congr_left
        intro j hj
        simp only [Function.comp_apply]
        rw [show Nat.succ j * b = b + j * b from by
          rw [Nat.succ_mul, Nat.add_comm], ← Nat.add_assoc]
    · have : (n - i + b - 1) / b = 0 := by
        apply Nat.div_eq_of_lt; omega
      simp [batchLoop, hin, this]

/-- Closed form of `batchRanges` for a positive batch size: the `j`-th chunk
is `[j*b, min(j*b+b, n))`, and there are `(n + b - 1) / b = ceil(n/b)`
chunks. -/
theorem batchRanges_closed (n b : Nat) (hb : 0 < b) :
    batchRanges n b =
      (List.range ((n + b - 1) / b)).map
        (fun j => ⟨j * b, min (j * b + b) n⟩) := by
  unfold batchRanges
  by_cases hn : n = 0
  · subst hn
    have h0 : (b - 1) / b = 0 := Nat.div_eq_of_lt (by omega)
    simp [h0]
  · rw [if_neg hn,
      batchLoop_closed b hb n n 0 (by nlinarith [Nat.one_le_iff_ne_zero.mpr hn])]
    simp

theorem batchRanges_length (n b : Nat) (hb : 0 < b) :
    (batchRanges n b).length = (n + b - 1) / b := by
  rw [batchRanges_closed n b hb]; simp

theorem batchRanges_get (n b : Nat) (hb : 0 < b) (j : Nat)
    (hj : j < (batchRanges n b).length) :
    (batchRanges n b).get ⟨j, hj⟩ = ⟨j * b, min (j * b + b) n⟩ := by
  have h := batchRanges_closed n b hb
  simp [List.get_eq_getElem, h]

/-! ## Resolve engine lemmas -/

theorem setEntries_handles (w : World) (sid : Nat) (es) :
    (setEntries w sid es).handles = w.handles := rfl

theorem setEntries_nextState (w : World) (sid : Nat) (es) :
    (setEntries w sid es).nextState = w.nextState := rfl

theorem setEntries_states_self (w : World) (sid : Nat) (es) :
    (setEntries w sid es).states sid = { w.states sid with entries := es } := by
  simp [setEntries]

theorem setEntries_states_other (w : World) (sid : Nat) (es) (s : Nat)
    (h : s ≠ sid) : (setEntries w sid es).states s = w.states s := by
  simp [setEntries, h]

theorem lookup_cons_self {β : Type} (k : String) (v : β)
    (l : List (String × β)) : ((k, v) :: l).lookup k = some v := by
  simp [List.lookup]

/-- The hit path of `Resolve`: a built entry is applied without building. -/
theorem Resolve_hit {t : RTy} (w : World) (key : String) (mty : Nat)
    (b : BuildFn t) (m : Nat) (sid : Nat) (h : resolverHolder)
    (hm : w.handles m = some sid)
    (hl : ((w.states sid).entries).lookup key = some h) :
    Resolve w (⟨key, some m, mty, b⟩ : ResolveSpec t) =
      ⟨applyResolver t (some h) key (some m), w, 0⟩ := by
  unfold Resolve
  simp [hm, hl]

/-- The miss path of `Resolve` with matching model type: the Build function
runs once against the batch, the holder is published, then applied. -/
theorem Resolve_miss {t : RTy} (w : World) (key : String) (mty : Nat)
    (b : BuildFn t) (m : Nat) (sid : Nat)
    (hm : w.handles m = some sid)
    (hl : ((w.states sid).entries).lookup key = none)
    (hmty : (w.states sid).mty = mty) :
    Resolve w (⟨key, some m, mty, b⟩ : ResolveSpec t) =
      ⟨applyResolver t (some (builtHolder b (w.states sid).models)) key (some m),
        setEntries w sid
          ((key, builtHolder b (w.states sid).models) :: (w.states sid).entries),
        1⟩ := by
  unfold Resolve
  simp [hm, hl, hmty, builtHolder]

/-- Every call of a sequence that finds a built entry applies it and never
builds; the world is left untouched. -/
theorem resolveAll_hit {t : RTy} (key : String) (mty : Nat) (sid : Nat)
    (h : resolverHolder) :
    ∀ (calls : List (GoModel × BuildFn t)) (w : World),
      (∀ c ∈ calls, ∃ m, c.1 = some m ∧ w.handles m = some sid) →
      ((w.states sid).entries).lookup key = some h →
      resolveAll w key mty calls =
        (w, 0, calls.map (fun c => applyResolver t (some h) key c.1)) := by
  intro calls
  induction calls with
  | nil => intro w _ _; simp [resolveAll]
  | cons c rest ih =>
    intro w hb hl
    obtain ⟨m, hc1, hcm⟩ := hb c (List.mem_cons_self c rest)
    have hrest := ih w (fun c' hc' => hb c' (List.mem_cons_of_mem c hc')) hl
    unfold resolveAll
    rw [hc1, Resolve_hit w key mty c.2 m sid h hcm hl]
    simp [hrest, hc1]

/-! ## Binder lemmas -/

theorem setHandles_cons_none (sid : Nat) (rest : List GoModel) (w : World) :
    setHandles sid (none :: rest) w = setHandles sid rest w := rfl

theorem setHandles_cons_some (sid : Nat) (mid : Nat)
    (rest : List GoModel) (w : World) :
    setHandles sid (some mid :: rest) w =
      setHandles sid rest
        { w with handles := fun x => if x = mid then some sid else w.handles x } :=
  rfl

theorem setHandles_states (sid : Nat) :
    ∀ (sub : List GoModel) (w : World), (setHandles sid sub w).states = w.states := by
  intro sub
  induction sub with
  | nil => intro w; rfl
  | cons m rest ih =>
    intro w
    cases m with
    | none => rw [setHandles_cons_none, ih]
    | some mid => rw [setHandles_cons_some, ih]

theorem setHandles_nextState (sid : Nat) :
    ∀ (sub : List GoModel) (w : World),
      (setHandles sid sub w).nextState = w.nextState := by
  intro sub
  induction sub with
  | nil => intro w; rfl
  | cons m rest ih =>
    intro w
    cases m with
    | none => rw [setHandles_cons_none, ih]
    | some mid => rw [setHandles_cons_some, ih]

theorem setHandles_handles (sid : Nat) :
    ∀ (sub : List GoModel) (w : World) (x : Nat),
      (setHandles sid sub w).handles x =
        if some x ∈ sub then some sid else w.handles x := by
  intro sub
  induction sub with
  | nil => intro w x; simp [setHandles]
  | cons m rest ih =>
    intro w x
    cases m with
    | none =>
      rw [setHandles_cons_none, ih]
      simp
    | some mid =>
      rw [setHandles_cons_some, ih]
      by_cases hx : some x ∈ rest
      · simp [hx]
      · by_cases hxm : x = mid
        · subst hxm; simp [hx]
        · simp [hx, hxm]

theorem bindOneRange_nextState (mty eb : Nat) (ps : List GoModel) (w : World)
    (r : rangeIndex) :
    (bindOneRange mty eb ps w r).nextState = w.nextState + 1 := by
  unfold bindOneRange
  rw [setHandles_nextState]

theorem bindOneRange_states (mty eb : Nat) (ps : List GoModel) (w : World)
    (r : rangeIndex) (s : Nat) :
    (bindOneRange mty eb ps w r).states s =
      if s = w.nextState then ⟨sliceOf ps r, mty, eb, []⟩ else w.states s := by
  unfold bindOneRange
  rw [setHandles_states]

theorem bindOneRange_handles (mty eb : Nat) (ps : List GoModel) (w : World)
    (r : rangeIndex) (x : Nat) :
    (bindOneRange mty eb ps w r).handles x =
      if some x ∈ sliceOf ps r then some w.nextState else w.handles x := by
  unfold bindOneRange
  rw [setHandles_handles]

theorem foldRanges_nextState (mty eb : Nat) (ps : List GoModel) :
    ∀ (rs : List rangeIndex) (w : World),
      (rs.foldl (bindOneRange mty eb ps) w).nextState = w.nextState + rs.length := by
  intro rs
  induction rs with
  | nil => intro w; simp
  | cons r rest ih =>
    intro w
    rw [List.foldl_cons, ih, bindOneRange_nextState]
    simp only [List.length_cons]
    omega

theorem foldRanges_states_lo (mty eb : Nat) (ps : List GoModel) :
    ∀ (rs : List rangeIndex) (w : World) (s : Nat), s < w.nextState →
      (rs.foldl (bindOneRange mty eb ps) w).states s = w.states s := by
  intro rs
  induction rs with
  | nil => intro w s _; rfl
  | cons r rest ih =>
    intro w s hs
    rw [List.foldl_cons,
      ih (bindOneRange mty eb ps w r) s
        (by rw [bindOneRange_nextState]; omega),
      bindOneRange_states]
    rw [if_neg (by omega)]

theorem foldRanges_states_get (mty eb : Nat) (ps : List GoModel) :
    ∀ (rs : List rangeIndex) (w : World) (j : Nat) (hj : j < rs.length),
      (rs.foldl (bindOneRange mty eb ps) w).states (w.nextState + j) =
        ⟨sliceOf ps (rs.get ⟨j, hj⟩), mty, eb, []⟩ := by
  intro rs
  induction rs with
  | nil => intro w j hj; exact absurd hj (by simp)
  | cons r rest ih =>
    intro w j hj
    cases j with
    | zero =>
      rw [List.foldl_cons,
        foldRanges_states_lo mty eb ps rest (bindOneRange mty eb ps w r)
          (w.nextState + 0) (by rw [bindOneRange_nextState]; omega),
        bindOneRange_states, if_pos (by omega)]
      rfl
    | succ j =>
      have hj' : j < rest.length := by simpa using hj
      rw [List.foldl_cons]
      have := ih (bindOneRange mty eb ps w r) j hj'
      rw [bindOneRange_nextState] at this
      rw [show w.nextState + (j + 1) = w.nextState + 1 + j by omega, this]
      rfl

theorem foldRanges_handles_frame (mty eb : Nat) (ps : List GoModel) :
    ∀ (rs : List rangeIndex) (w : World) (x : Nat),
      (∀ r ∈ rs, some x ∉ sliceOf ps r) →
      (rs.foldl (bindOneRange mty eb ps) w).handles x = w.handles x := by
  intro rs
  induction rs with
  | nil => intro w x _; rfl
  | cons r rest ih =>
    intro w x hnot
    rw [List.foldl_cons,
      ih (bindOneRange mty eb ps w r) x
        (fun r' hr' => hnot r' (List.mem_cons_of_mem r hr')),
      bindOneRange_handles,
      if_neg (hnot r (List.mem_cons_self r rest))]

theorem foldRanges_handles_mem (mty eb : Nat) (ps : List GoModel) :
    ∀ (rs : List rangeIndex) (w : World) (x : Nat) (j : Nat)
      (hj : j < rs.length),
      some x ∈ sliceOf ps (rs.get ⟨j, hj⟩) →
      (∀ (j' : Nat) (hj' : j' < rs.length), j < j' →
        some x ∉ sliceOf ps (rs.get ⟨j', hj'⟩)) →
      (rs.foldl (bindOneRange mty eb ps) w).handles x = some (w.nextState + j) := by
  intro rs
  induction rs with
  | nil => intro w x j hj; exact absurd hj (by simp)
  | cons r rest ih =>
    intro w x j hj hmem hnot
    cases j with
    | zero =>
      have hframe : ∀ r' ∈ rest, some x ∉ sliceOf ps r' := by
        intro r' hr'
        obtain ⟨n, hget⟩ := List.mem_iff_get.mp hr'
        have hn := n.2
        have h2 := hnot (n.1 + 1) (by simp only [List.length_cons]; omega)
          (by omega)
        rw [List.get_cons_succ] at h2
        simp only [Fin.eta] at h2
        rw [hget] at h2
        exact h2
      rw [List.foldl_cons, foldRanges_handles_frame mty eb ps rest _ x hframe,
        bindOneRange_handles, if_pos (by simpa using hmem)]
      rfl
    | succ j =>
      have hj' : j < rest.length := by simpa using hj
      rw [List.foldl_cons]
      have := ih (bindOneRange mty eb ps w r) x j hj'
        (by simpa using hmem)
        (by
          intro j2 hj2 hlt
          have := hnot (j2 + 1) (by simpa using hj2) (by omega)
          rw [List.get_cons_succ] at this
          exact this)
      rw [this, bindOneRange_nextState]
      congr 1
      omega

theorem foldRanges_handles_cover (mty eb : Nat) (ps : List GoModel) :
    ∀ (rs : List rangeIndex) (w : World) (x : Nat),
      (∃ r ∈ rs, some x ∈ sliceOf ps r) →
      ∃ j, j < rs.length ∧
        (rs.foldl (bindOneRange mty eb ps) w).handles x = some (w.nextState + j) := by
  intro rs
  induction rs with
  | nil => intro w x h; simp at h
  | cons r rest ih =>
    intro w x hex
    by_cases hrest : ∃ r' ∈ rest, some x ∈ sliceOf ps r'
    · obtain ⟨j, hjlen, hh⟩ := ih (bindOneRange mty eb ps w r) x hrest
      rw [bindOneRange_nextState] at hh
      exact ⟨j + 1, by simpa using Nat.succ_lt_succ hjlen,
        by rw [List.foldl_cons, hh]; congr 1; omega⟩
    · have hmem : some x ∈ sliceOf ps r := by
        obtain ⟨r0, hr0, hx0⟩ := hex
        rcases List.mem_cons.mp hr0 with h | h
        · rwa [← h]
        · exact absurd ⟨r0, h, hx0⟩ hrest
      refine ⟨0, by simp, ?_⟩
      rw [List.foldl_cons,
        foldRanges_handles_frame mty eb ps rest _ x
          (fun r' hr' hx' => hrest ⟨r', hr', hx'⟩),
        bindOneRange_handles, if_pos hmem]
      rfl

theorem needBindAux_cons_none (w : World) (rest : List GoModel)
    (acc : Option StateId) :
    needBindAux w (none :: rest) acc = needBindAux w rest acc := rfl

/-- Characterization of the scan with a first-state accumulator: it reports
`true` exactly when some later non-nil model is not bound to that state. -/
theorem needBindAux_some_iff (w : World) :
    ∀ (ps : List GoModel) (f : Nat),
      needBindAux w ps (some f) = true ↔
        ∃ m, some m ∈ ps ∧ w.handles m ≠ some f := by
  intro ps
  induction ps with
  | nil => intro f; simp [needBindAux]
  | cons x rest ih =>
    intro f
    cases x with
    | none =>
      rw [needBindAux_cons_none, ih]
      simp
    | some m0 =>
      cases hm0 : w.handles m0 with
      | none =>
        simp only [needBindAux, hm0]
        constructor
        · intro _
          exact ⟨m0, List.mem_cons_self _ _, by rw [hm0]; intro hc; cases hc⟩
        · intro _; trivial
      | some st =>
        by_cases hf : f = st
        · subst hf
          rw [show needBindAux w (some m0 :: rest) (some f) =
              needBindAux w rest (some f) from by simp [needBindAux, hm0]]
          rw [ih]
          constructor
          · rintro ⟨m, hmem, hne⟩
            exact ⟨m, List.mem_cons_of_mem _ hmem, hne⟩
          · rintro ⟨m, hmem, hne⟩
            rcases List.mem_cons.mp hmem with he | hmem2
            · exfalso
              have hm : m = m0 := Option.some_inj.mp he
              rw [hm, hm0] at hne
              exact hne rfl
            · exact ⟨m, hmem2, hne⟩
        · simp only [needBindAux, hm0, if_neg hf]
          constructor
          · intro _
            refine ⟨m0, List.mem_cons_self _ _, ?_⟩
            rw [hm0]
            intro hc
            exact hf (Option.some_inj.mp hc).symm
          · intro _; trivial

/-- **Invariant scan.** The rebind decision of `bindPtrSlice` fires exactly
when some non-nil model is unbound or two non-nil models reference
different states. -/
theorem needBind_iff (w : World) (ps : List GoModel) :
    needBind w ps = true ↔
      (∃ m, some m ∈ ps ∧ w.handles m = none) ∨
      (∃ m1 m2, some m1 ∈ ps ∧ some m2 ∈ ps ∧ w.handles m1 ≠ w.handles m2) := by
  unfold needBind
  induction ps with
  | nil => simp [needBindAux]
  | cons x rest ih =>
    cases x with
    | none =>
      rw [needBindAux_cons_none, ih]
      simp
    | some m0 =>
      cases hm0 : w.handles m0 with
      | none =>
        simp only [needBindAux, hm0]
        constructor
        · intro _
          exact Or.inl ⟨m0, List.mem_cons_self _ _, hm0⟩
        · intro _; trivial
      | some st =>
        simp only [needBindAux, hm0]
        rw [needBindAux_some_iff w rest st]
        constructor
        · rintro ⟨m, hmem, hne⟩
          cases hmm : w.handles m with
          | none => exact Or.inl ⟨m, List.mem_cons_of_mem _ hmem, hmm⟩
          | some st2 =>
            refine Or.inr ⟨m0, m, List.mem_cons_self _ _,
              List.mem_cons_of_mem _ hmem, ?_⟩
            rw [hm0, hmm]
            intro hc
            have hst : st = st2 := Option.some_inj.mp hc
            rw [hmm, ← hst] at hne
            exact hne rfl
        · rintro (⟨m, hmem, hmn⟩ | ⟨m1, m2, h1, h2, hne12⟩)
          · rcases List.mem_cons.mp hmem with he | hmem2
            · exfalso
              have hm : m = m0 := Option.some_inj.mp he
              rw [hm, hm0] at hmn
              cases hmn
            · exact ⟨m, hmem2, by rw [hmn]; intro hc; cases hc⟩
          · by_cases hq : w.handles m1 = some st
            · have hne2 : w.handles m2 ≠ some st := fun hc =>
                hne12 (hq.trans hc.symm)
              rcases List.mem_cons.mp h2 with he | hmem2
              · exfalso
                have hm : m2 = m0 := Option.some_inj.mp he
                rw [hm, hm0] at hne2
                exact hne2 rfl
              · exact ⟨m2, hmem2, hne2⟩
            · rcases List.mem_cons.mp h1 with he | hmem1
              · exfalso
                have hm : m1 = m0 := Option.some_inj.mp he
                rw [hm, hm0] at hq
                exact hq rfl
              · exact ⟨m1, hmem1, hq⟩

theorem needBind_false_of_uniform (w : World) (ps : List GoModel) (sid : Nat)
    (h : ∀ m, some m ∈ ps → w.handles m = some sid) :
    needBind w ps = false := by
  cases hb : needBind w ps with
  | false => rfl
  | true =>
    exfalso
    rcases (needBind_iff w ps).mp hb with ⟨m, hmem, hmn⟩ | ⟨m1, m2, h1, h2, hne⟩
    · rw [h m hmem] at hmn
      cases hmn
    · exact hne ((h m1 h1).trans (h m2 h2).symm)

/-! ## Slice membership arithmetic -/

theorem div_lt_ceil (idx n b : Nat) (hb : 0 < b) (h : idx < n) :
    idx / b < (n + b - 1) / b := by
  have h1 : idx / b ≤ (n - 1) / b := Nat.div_le_div_right (by omega)
  have h2 : n + b - 1 = (n - 1) + b := by omega
  rw [h2, Nat.add_div_right _ hb]
  omega

/-- The `batchRanges` chunk starting at `j*b` slices to `drop` plus
`take`. -/
theorem sliceOf_batch (ps : List GoModel) (b j : Nat) :
    sliceOf ps ⟨j * b, min (j * b + b) ps.length⟩ = (ps.drop (j * b)).take b := by
  unfold sliceOf
  dsimp only
  rcases le_or_lt (j * b + b) ps.length with h | h
  · rw [min_eq_left h]
    congr 1
    omega
  · rw [min_eq_right (by omega)]
    rw [List.take_of_length_le (by rw [List.length_drop]),
      List.take_of_length_le (by rw [List.length_drop]; omega)]

/-- Element `idx` of the normalized slice belongs to the chunk of its own
partition index `idx / b`. -/
theorem getElem_mem_batch_slice (ps : List GoModel) (b : Nat) (hb : 0 < b)
    (idx : Nat) (hidx : idx < ps.length) :
    ps[idx] ∈ (ps.drop (idx / b * b)).take b := by
  have hdm := Nat.div_add_mod idx b
  have hmlt := Nat.mod_lt idx hb
  have hco : b * (idx / b) = idx / b * b := Nat.mul_comm _ _
  rw [List.mem_iff_getElem]
  refine ⟨idx - idx / b * b, ?_, ?_⟩
  · simp only [List.length_take, List.length_drop]
    omega
  · rw [List.getElem_take, List.getElem_drop]
    congr 1
    omega

/-- With pairwise distinct model pointers, element `idx` does not appear in
any chunk after its own. -/
theorem not_mem_later_batch_slice (ps : List GoModel) (b : Nat) (hb : 0 < b)
    (hnd : ps.Nodup) (idx : Nat) (hidx : idx < ps.length) (j' : Nat)
    (hgt : idx / b < j') :
    ps[idx] ∉ (ps.drop (j' * b)).take b := by
  intro hmem
  rw [List.mem_iff_getElem] at hmem
  obtain ⟨i, hi, hval⟩ := hmem
  rw [List.getElem_take, List.getElem_drop] at hval
  have heq : j' * b + i = idx := (List.Nodup.getElem_inj_iff hnd).mp hval
  have hdm := Nat.div_add_mod idx b
  have hmlt := Nat.mod_lt idx hb
  have hco : b * (idx / b) = idx / b * b := Nat.mul_comm _ _
  have hmul : (idx / b + 1) * b ≤ j' * b := Nat.mul_le_mul_right b hgt
  have hsm : (idx / b + 1) * b = idx / b * b + b := by ring
  omega

/-! ## Claim theorems -/

/-- **C2.** A nil requesting model given to `Resolve`, `Many`, or `One`
returns the zero/empty result and no error; the world is unchanged and the
Build/Fetch function is never invoked (zero builds, and the outcome is
independent of the supplied Build/Fetch functions, which are universally
quantified here). -/
theorem claim_C2 {t : RTy} (w : World) (key : String) (mty : Nat)
    (b : BuildFn t) (mk : GoModel → Option JoinKey) (rk : Relation → JoinKey)
    (f : List JoinKey → Except LErr (List Relation)) :
    Resolve w (⟨key, none, mty, b⟩ : ResolveSpec t) = ⟨.ok t.zero, w, 0⟩ ∧
    Many w ⟨key, none, mty, mk, rk, f⟩ = ⟨.ok [], w, 0⟩ ∧
    One w ⟨key, none, mty, mk, rk, f⟩ = (.ok 0, w, 0) :=
  ⟨rfl, rfl, rfl⟩

/-- **C7.** A published error is replayed verbatim by every later `Resolve`
for that key on that state, with no new Build and no state change; an
explicit `Reset` clears the entry; and a Build that returns an error has
that error propagated verbatim by the building call itself. -/
theorem claim_C7 {t : RTy} (w : World) (key : String) (mty : Nat)
    (b : BuildFn t) (m : Nat) (sid : Nat) (h : resolverHolder)
    (e : LErr)
    (hm : w.handles m = some sid)
    (hl : ((w.states sid).entries).lookup key = some h)
    (he : h.err = some e) :
    Resolve w (⟨key, some m, mty, b⟩ : ResolveSpec t) = ⟨.error e, w, 0⟩ ∧
    ((Reset w m).states sid).entries = [] ∧
    (∀ (w2 : World) (m2 : Nat) (sid2 : Nat) (b2 : BuildFn t)
        (r : Option (GoModel → t.interp)),
      w2.handles m2 = some sid2 →
      ((w2.states sid2).entries).lookup key = none →
      (w2.states sid2).mty = mty →
      b2 (w2.states sid2).models = (r, some e) →
      (Resolve w2 (⟨key, some m2, mty, b2⟩ : ResolveSpec t)).result = .error e) := by
  refine ⟨?_, ?_, ?_⟩
  · rw [Resolve_hit w key mty b m sid h hm hl]
    simp [applyResolver, he]
  · simp [Reset, hm, setEntries_states_self]
  · intro w2 m2 sid2 b2 r hm2 hl2 hmty2 hb2
    rw [Resolve_miss w2 key mty b2 m2 sid2 hm2 hl2 hmty2]
    simp [applyResolver, builtHolder, hb2]

/-- Witness for C7 at concrete inputs: a cached upstream error `9` is
replayed by a later call, `Reset` clears it, and a failing Build propagates
its error on the building call. -/
theorem claim_C7_witness :
    Resolve wErr (⟨"k", some 0, 7, bLen⟩ : ResolveSpec .rNat) =
      ⟨.error (.upstream 9), wErr, 0⟩ ∧
    ((Reset wErr 0).states 0).entries = [] ∧
    (Resolve wOne (⟨"k", some 0, 7, bFail⟩ : ResolveSpec .rNat)).result =
      .error (.upstream 9) := by
  have h := claim_C7 (t := .rNat) wErr "k" 7 bLen 0 0 holderErr (.upstream 9)
    rfl rfl rfl
  exact ⟨h.1, h.2.1, h.2.2 wOne 0 0 bFail none rfl rfl rfl rfl⟩

/-- **C9.** A key already built on this state at an incompatible result type
makes a later `Resolve` at a different result type fail with the
type-mismatch error, without running Build and without touching the
state. -/
theorem claim_C9 {t2 : RTy} (w : World) (key : String) (mty : Nat)
    (b : BuildFn t2) (m : Nat) (sid : Nat) (h : resolverHolder)
    (t1 : RTy) (f : GoModel → t1.interp)
    (hm : w.handles m = some sid)
    (hl : ((w.states sid).entries).lookup key = some h)
    (hres : h.resolver = some ⟨t1, f⟩)
    (herr : h.err = none)
    (hne : t1 ≠ t2) :
    Resolve w (⟨key, some m, mty, b⟩ : ResolveSpec t2) =
      ⟨.error (.typeMismatch key), w, 0⟩ := by
  rw [Resolve_hit w key mty b m sid h hm hl]
  simp [applyResolver, herr, hres, hne]

/-- Witness for C9: key `"k"` was built at the string type on `wStr`; a
numeric `Resolve` for the same key reports the type mismatch and does not
rebuild. -/
theorem claim_C9_witness :
    Resolve wStr (⟨"k", some 0, 7, bLen⟩ : ResolveSpec .rNat) =
      ⟨.error (.typeMismatch "k"), wStr, 0⟩ :=
  claim_C9 wStr "k" 7 bLen 0 0 holderStr .rStr (fun _ => "v")
    rfl rfl rfl rfl (by decide)

/-- **C8.** `Reset` on an unbound handle is a no-op; on a bound handle it
clears the shared state entry map in place: no handle is rewritten, no
state is allocated or replaced, other states are untouched, and the next
`Resolve` on any model sharing the state runs Build exactly once again. -/
theorem claim_C8 (w : World) (m : Nat) :
    (w.handles m = none → Reset w m = w) ∧
    (∀ sid, w.handles m = some sid →
      (Reset w m).handles = w.handles ∧
      (Reset w m).nextState = w.nextState ∧
      (Reset w m).states sid = { w.states sid with entries := [] } ∧
      (∀ s, s ≠ sid → (Reset w m).states s = w.states s) ∧
      (∀ (t : RTy) (key : String) (b : BuildFn t) (m2 : Nat),
        w.handles m2 = some sid →
        (Resolve (Reset w m)
          (⟨key, some m2, (w.states sid).mty, b⟩ : ResolveSpec t)).builds = 1)) := by
  constructor
  · intro hm; simp [Reset, hm]
  · intro sid hm
    have hr : Reset w m = setEntries w sid [] := by simp [Reset, hm]
    refine ⟨by rw [hr]; rfl, by rw [hr]; rfl, by rw [hr]; exact setEntries_states_self w sid [], ?_, ?_⟩
    · intro s hs; rw [hr]; exact setEntries_states_other w sid [] s hs
    · intro t key b m2 hm2
      have hm2' : (Reset w m).handles m2 = some sid := by rw [hr]; exact hm2
      have hl : (((Reset w m).states sid).entries).lookup key = none := by
        rw [hr, setEntries_states_self]
        rfl
      have hmty : ((Reset w m).states sid).mty = (w.states sid).mty := by
        rw [hr, setEntries_states_self]
      rw [Resolve_miss (Reset w m) key (w.states sid).mty b m2 sid hm2' hl hmty]

/-- Witness for C8 at concrete inputs: `Reset` on the unbound `w0` handle of
model `1` is a no-op; `Reset` through model `0` of `wErr` clears the cache
of state `0` in place and the next `Resolve` rebuilds exactly once. -/
theorem claim_C8_witness :
    Reset w0 1 = w0 ∧
    (Reset wErr 0).handles = wErr.handles ∧
    (Reset wErr 0).states 0 = { wErr.states 0 with entries := [] } ∧
    (Resolve (Reset wErr 0)
      (⟨"k", some 0, (wErr.states 0).mty, bLen⟩ : ResolveSpec .rNat)).builds = 1 := by
  have h0 := (claim_C8 w0 1).1 rfl
  have h1 := (claim_C8 wErr 0).2 0 rfl
  exact ⟨h0, h1.1, h1.2.2.1, h1.2.2.2.2 .rNat "k" bLen 0 rfl⟩

/-- **C1.** For a fixed Batch State and cache key, a nonempty sequence of
`Resolve` calls (arbitrary requesting models bound to that state, arbitrary
per-call Build functions) starting from an unbuilt entry runs Build exactly
once — the Build of the first call, against the entire batch — and every call in
the sequence observes the one published holder: its stored resolver applied
to the own model of the caller, or its stored error. -/
theorem claim_C1 {t : RTy} (w : World) (key : String) (mty : Nat)
    (sid : Nat) (c0 : GoModel × BuildFn t)
    (rest : List (GoModel × BuildFn t))
    (hbound : ∀ c ∈ c0 :: rest, ∃ m, c.1 = some m ∧ w.handles m = some sid)
    (hmty : (w.states sid).mty = mty)
    (hfresh : ((w.states sid).entries).lookup key = none) :
    (resolveAll w key mty (c0 :: rest)).2.1 = 1 ∧
    (resolveAll w key mty (c0 :: rest)).2.2 =
      (c0 :: rest).map
        (fun c =>
          applyResolver t (some (builtHolder c0.2 (w.states sid).models)) key c.1) := by
  obtain ⟨m0, h01, h0m⟩ := hbound c0 (List.mem_cons_self c0 rest)
  have hres := Resolve_miss w key mty c0.2 m0 sid h0m hfresh hmty
  set hh := builtHolder c0.2 (w.states sid).models with hhdef
  set w1 := setEntries w sid ((key, hh) :: (w.states sid).entries) with hw1def
  have hw1l : ((w1.states sid).entries).lookup key = some hh := by
    rw [hw1def, setEntries_states_self]
    exact lookup_cons_self key hh (w.states sid).entries
  have hb1 : ∀ c ∈ rest, ∃ m, c.1 = some m ∧ w1.handles m = some sid := by
    intro c hc
    obtain ⟨m, hc1, hcm⟩ := hbound c (List.mem_cons_of_mem c0 hc)
    exact ⟨m, hc1, by rw [hw1def, setEntries_handles]; exact hcm⟩
  have hrest := resolveAll_hit key mty sid hh rest w1 hb1 hw1l
  unfold resolveAll
  rw [h01, hres]
  simp only []
  rw [hrest]
  simp [h01]

/-- Witness for C1: models `0` and `1` share state `0` of `wPair`; two
`Resolve` calls for key `"k"` run Build once in total and both observe the
holder built by the first call. -/
theorem claim_C1_witness :
    (resolveAll wPair "k" 7 [((some 0 : GoModel), bLen), (some 1, bLen)]).2.1 = 1 ∧
    (resolveAll wPair "k" 7 [((some 0 : GoModel), bLen), (some 1, bLen)]).2.2 =
      [((some 0 : GoModel), bLen), (some 1, bLen)].map
        (fun c =>
          applyResolver .rNat (some (builtHolder bLen (wPair.states 0).models)) "k" c.1) := by
  have h := claim_C1 wPair "k" 7 0 ((some 0 : GoModel), bLen) [(some 1, bLen)]
    (by
      intro c hc
      simp only [List.mem_cons, List.not_mem_nil, or_false] at hc
      rcases hc with h1 | h1 <;> subst h1
      · exact ⟨0, rfl, rfl⟩
      · exact ⟨1, rfl, rfl⟩)
    rfl rfl
  exact h

/-- **C5.** Binding is idempotent: a slice whose non-nil models all already
reference one and the same state is left entirely unchanged (no handle
rewritten, no state allocated); the rebind decision fires exactly when some
model is unbound or two models reference different states; and when it
fires, every non-nil model of the input is rebound onto one of the freshly
allocated states. -/
theorem claim_C5 (w : World) (mty eb b : Nat) (ps : List GoModel) :
    (∀ sid : Nat, (∀ m, some m ∈ ps → w.handles m = some sid) →
      bindPtrSlice w mty eb ps b = w) ∧
    (needBind w ps = true ↔
      (∃ m, some m ∈ ps ∧ w.handles m = none) ∨
      (∃ m1 m2, some m1 ∈ ps ∧ some m2 ∈ ps ∧ w.handles m1 ≠ w.handles m2)) ∧
    (0 < b → needBind w ps = true →
      ∀ m, some m ∈ ps →
        ∃ j, j < (ps.length + b - 1) / b ∧
          (bindPtrSlice w mty eb ps b).handles m = some (w.nextState + j)) := by
  refine ⟨?_, needBind_iff w ps, ?_⟩
  · intro sid huni
    unfold bindPtrSlice
    rw [needBind_false_of_uniform w ps sid huni]
    simp
  · intro hb htrue m hmem
    unfold bindPtrSlice
    rw [htrue]
    simp only [if_true]
    obtain ⟨idx, hidx, hval⟩ := List.mem_iff_getElem.mp hmem
    have hjlt : idx / b < (batchRanges ps.length b).length := by
      rw [batchRanges_length ps.length b hb]
      exact div_lt_ceil idx ps.length b hb hidx
    have hmem2 : some m ∈ sliceOf ps ((batchRanges ps.length b).get ⟨idx / b, hjlt⟩) := by
      rw [batchRanges_get ps.length b hb (idx / b) hjlt, sliceOf_batch, ← hval]
      exact getElem_mem_batch_slice ps b hb idx hidx
    obtain ⟨j, hjlen, hh⟩ := foldRanges_handles_cover mty eb ps
      (batchRanges ps.length b) w m
      ⟨(batchRanges ps.length b).get ⟨idx / b, hjlt⟩, List.get_mem _ _ hjlt, hmem2⟩
    rw [batchRanges_length ps.length b hb] at hjlen
    exact ⟨j, hjlen, hh⟩

/-- Witness for C5: rebinding the already uniformly bound pair of `wPair` is
a no-op; binding the unbound singleton of `w0` fires and rebinds it onto a
fresh state. -/
theorem claim_C5_witness :
    bindPtrSlice wPair 7 5000 [(some 0 : GoModel), some 1] 5000 = wPair ∧
    needBind w0 [(some 0 : GoModel)] = true ∧
    (∃ j, j < (([(some 0 : GoModel)].length + 1 - 1) / 1) ∧
      (bindPtrSlice w0 0 1 [(some 0 : GoModel)] 1).handles 0 =
        some (w0.nextState + j)) := by
  have htrue : needBind w0 [(some 0 : GoModel)] = true :=
    (claim_C5 w0 0 1 1 [(some 0 : GoModel)]).2.1.mpr
      (Or.inl ⟨0, List.mem_cons_self _ _, rfl⟩)
  refine ⟨?_, htrue, ?_⟩
  · exact (claim_C5 wPair 7 5000 5000 [(some 0 : GoModel), some 1]).1 0
      (by
        intro m hm
        simp only [List.mem_cons, List.not_mem_nil, or_false] at hm
        rcases hm with h1 | h1
        · have hv : m = 0 := Option.some_inj.mp h1
          subst hv; rfl
        · have hv : m = 1 := Option.some_inj.mp h1
          subst hv; rfl)
  · exact (claim_C5 w0 0 1 1 [(some 0 : GoModel)]).2.2 (by omega) htrue 0
      (List.mem_cons_self _ _)

/-- **C3.** Binding a previously-unbound normalized sequence of `M` distinct
models with batch size `B ≥ 1` allocates exactly `⌈M/B⌉` fresh states (the
allocation cursor advances by exactly that much, and the states are
pairwise distinct by construction); the `j`-th state records exactly the
contiguous sub-slice `ps[j*B : min((j+1)*B, M)]` as its model list; and the
model at index `idx` ends with its Handle referencing exactly the state of
its own partition `idx / B`. -/
theorem claim_C3 (w : World) (mty eb b : Nat) (hb : 0 < b) (ps : List GoModel)
    (hne : ps ≠ [])
    (hsome : ∀ x ∈ ps, x.isSome = true)
    (hnd : ps.Nodup)
    (hunb : ∀ m, some m ∈ ps → w.handles m = none) :
    (bindPtrSlice w mty eb ps b).nextState =
      w.nextState + (ps.length + b - 1) / b ∧
    (∀ j, j < (ps.length + b - 1) / b →
      ((bindPtrSlice w mty eb ps b).states (w.nextState + j)).models =
        (ps.drop (j * b)).take b) ∧
    (∀ idx, (hidx : idx < ps.length) → ∃ m, ps[idx] = some m ∧
      (bindPtrSlice w mty eb ps b).handles m = some (w.nextState + idx / b)) := by
  have hneed : needBind w ps = true := by
    apply (needBind_iff w ps).mpr
    apply Or.inl
    obtain ⟨x, rest, hcons⟩ := List.exists_cons_of_ne_nil hne
    cases x with
    | none =>
      exfalso
      have := hsome none (by rw [hcons]; exact List.mem_cons_self _ _)
      simp at this
    | some m0 =>
      exact ⟨m0, by rw [hcons]; exact List.mem_cons_self _ _,
        hunb m0 (by rw [hcons]; exact List.mem_cons_self _ _)⟩
  have hbind : bindPtrSlice w mty eb ps b =
      (batchRanges ps.length b).foldl (bindOneRange mty eb ps) w := by
    unfold bindPtrSlice
    rw [hneed]
    simp
  refine ⟨?_, ?_, ?_⟩
  · rw [hbind, foldRanges_nextState, batchRanges_length ps.length b hb]
  · intro j hj
    have hj' : j < (batchRanges ps.length b).length := by
      rw [batchRanges_length ps.length b hb]; exact hj
    rw [hbind, foldRanges_states_get mty eb ps (batchRanges ps.length b) w j hj']
    rw [batchRanges_get ps.length b hb j hj', sliceOf_batch]
  · intro idx hidx
    have hsx := hsome ps[idx] (List.getElem_mem hidx)
    obtain ⟨m, hval⟩ := Option.isSome_iff_exists.mp hsx
    have hjlt : idx / b < (batchRanges ps.length b).length := by
      rw [batchRanges_length ps.length b hb]
      exact div_lt_ceil idx ps.length b hb hidx
    refine ⟨m, hval, ?_⟩
    rw [hbind]
    rw [foldRanges_handles_mem mty eb ps (batchRanges ps.length b) w m
      (idx / b) hjlt ?_ ?_]
    · rw [batchRanges_get ps.length b hb (idx / b) hjlt, sliceOf_batch, ← hval]
      exact getElem_mem_batch_slice ps b hb idx hidx
    · intro j' hj' hgt
      rw [batchRanges_get ps.length b hb j' hj', sliceOf_batch, ← hval]
      exact not_mem_later_batch_slice ps b hb hnd idx hidx j' hgt

/-- Witness for C3: binding `[some 0, some 1, some 2]` with batch size 2 in
the empty world advances the cursor by 2, gives the second state the model
list `[some 2]`, and binds model `2` to the second state. -/
theorem claim_C3_witness :
    (bindPtrSlice w0 3 2 [(some 0 : GoModel), some 1, some 2] 2).nextState =
      w0.nextState + ([(some 0 : GoModel), some 1, some 2].length + 2 - 1) / 2 ∧
    ((bindPtrSlice w0 3 2 [(some 0 : GoModel), some 1, some 2] 2).states
        (w0.nextState + 1)).models = [(some 2 : GoModel)] ∧
    (∃ m, [(some 0 : GoModel), some 1, some 2][2] = some m ∧
      (bindPtrSlice w0 3 2 [(some 0 : GoModel), some 1, some 2] 2).handles m =
        some (w0.nextState + 2 / 2)) := by
  have h := claim_C3 w0 3 2 2 (by omega) [(some 0 : GoModel), some 1, some 2]
    (by simp)
    (by decide)
    (by decide)
    (by intro m _; rfl)
  refine ⟨h.1, ?_, h.2.2 2 (by decide)⟩
  have h2 := h.2.1 1 (by decide)
  rw [h2]
  rfl

/-- **C4 (code bug).** The claim (and the repository test
`TestInitHandles_VariousInputs`, case `single **T`) says a non-nil
reference-to-reference to a single model is bound as a singleton sequence.
The code disagrees: `**T` does not implement `hasState` (method sets are
promoted through only one pointer level), so `toPtrSlice` falls into its
dereferencing loop, unwraps both pointer levels, lands on the struct — not
a slice — and gives up.  Evaluating the embedded code at the failing input
(a reference to a reference to the unbound model `0`): `InitHandles` is a
complete no-op and the Handle of the model stays nil, where the claim requires
it to end bound to a singleton Batch State. -/
theorem claim_C4 :
    InitHandles w0 0 5000 (.refTo (some (.modelPtr (some 0)))) = w0 ∧
    (InitHandles w0 0 5000 (.refTo (some (.modelPtr (some 0))))).handles 0 =
      none := by
  constructor <;> rfl

/-! ## Relation-engine lemmas -/

/-- The grouping fold of the `Many` Build closure, looked up at one key,
yields exactly the fetched relations carrying that key, in fetch order. -/
theorem grouped_step_eq (rk : Relation → JoinKey) :
    ∀ (rels : List Relation) (g : JoinKey → List Relation) (k : JoinKey),
      (rels.foldl
        (fun g r => fun k2 => if k2 = rk r then g k2 ++ [r] else g k2) g) k =
        g k ++ rels.filter (fun r => rk r = k) := by
  intro rels
  induction rels with
  | nil => intro g k; simp
  | cons r rest ih =>
    intro g k
    rw [List.foldl_cons, ih]
    by_cases hk : rk r = k
    · rw [List.filter_cons_of_pos (by simp [hk])]
      rw [if_pos hk.symm, List.append_assoc]
      rfl
    · rw [List.filter_cons_of_neg (by simp [hk])]
      rw [if_neg (fun h => hk h.symm)]

theorem grouped_filter (rk : Relation → JoinKey) (rels : List Relation)
    (k : JoinKey) :
    grouped rk rels k = rels.filter (fun r => rk r = k) := by
  unfold grouped
  rw [grouped_step_eq]
  simp

/-- **C6.** For a bound parent whose ModelKey yields join key `k` and a
fresh cache key, `Many` fetches once (one Build) and returns exactly the
fetched relations whose RelationKey is `k`, in fetch order; an unmatched
parent key gives the empty result with no error; and in the resulting
world any further bound parent with a present key `k2` gets its own group,
in fetch order, with no further Build. -/
theorem claim_C6 (w : World) (key : String) (mty : Nat) (p : Nat) (sid : Nat)
    (mk : GoModel → Option JoinKey) (rk : Relation → JoinKey)
    (fetch : List JoinKey → Except LErr (List Relation))
    (rels : List Relation) (k : JoinKey)
    (hp : w.handles p = some sid)
    (hmty : (w.states sid).mty = mty)
    (hfresh : ((w.states sid).entries).lookup key = none)
    (hk : mk (some p) = some k)
    (hf : fetch (distinctKeys mk (w.states sid).models) = .ok rels) :
    (Many w ⟨key, some p, mty, mk, rk, fetch⟩).result =
      .ok (rels.filter (fun r => rk r = k)) ∧
    (Many w ⟨key, some p, mty, mk, rk, fetch⟩).builds = 1 ∧
    (rels.filter (fun r => rk r = k) = [] →
      (Many w ⟨key, some p, mty, mk, rk, fetch⟩).result = .ok []) ∧
    (∀ p2 k2,
      (Many w ⟨key, some p, mty, mk, rk, fetch⟩).world.handles p2 = some sid →
      mk (some p2) = some k2 →
      Many (Many w ⟨key, some p, mty, mk, rk, fetch⟩).world
          ⟨key, some p2, mty, mk, rk, fetch⟩ =
        ⟨.ok (rels.filter (fun r => rk r = k2)),
          (Many w ⟨key, some p, mty, mk, rk, fetch⟩).world, 0⟩) := by
  have hmb : manyBuild ⟨key, some p, mty, mk, rk, fetch⟩ (w.states sid).models =
      (some (manyResolver mk rk rels), none) := by
    simp only [manyBuild, hf]
    rfl
  have hbh : builtHolder (manyBuild ⟨key, some p, mty, mk, rk, fetch⟩)
      (w.states sid).models = manyHolder mk rk rels := by
    unfold builtHolder manyHolder
    rw [hmb]
    rfl
  have happ : ∀ (q : GoModel),
      applyResolver .rList (some (manyHolder mk rk rels)) key q =
        .ok (manyResolver mk rk rels q) := by
    intro q
    simp [applyResolver, manyHolder]
  have hval : manyResolver mk rk rels (some p) =
      rels.filter (fun r => rk r = k) := by
    simp only [manyResolver, hk]
    exact grouped_filter rk rels k
  have hresolve : Resolve w
      (⟨key, some p, mty, manyBuild ⟨key, some p, mty, mk, rk, fetch⟩⟩ :
        ResolveSpec .rList) =
      ⟨.ok (rels.filter (fun r => rk r = k)),
        setEntries w sid
          ((key, manyHolder mk rk rels) :: (w.states sid).entries), 1⟩ := by
    rw [Resolve_miss w key mty (manyBuild ⟨key, some p, mty, mk, rk, fetch⟩)
      p sid hp hfresh hmty, hbh, happ (some p), hval]
  have hmany : Many w ⟨key, some p, mty, mk, rk, fetch⟩ =
      ⟨.ok (rels.filter (fun r => rk r = k)),
        setEntries w sid
          ((key, manyHolder mk rk rels) :: (w.states sid).entries), 1⟩ := by
    simp only [Many, hk, hp, hresolve]
  refine ⟨by rw [hmany], by rw [hmany], by intro he; rw [hmany, he], ?_⟩
  intro p2 k2 hp2 hk2
  rw [hmany] at hp2 ⊢
  have hp2' : (setEntries w sid
      ((key, manyHolder mk rk rels) :: (w.states sid).entries)).handles p2 =
      some sid := hp2
  have hlook : (((setEntries w sid
      ((key, manyHolder mk rk rels) :: (w.states sid).entries)).states
      sid).entries).lookup key = some (manyHolder mk rk rels) := by
    rw [setEntries_states_self]
    exact lookup_cons_self key _ _
  have hhit := Resolve_hit
    (setEntries w sid ((key, manyHolder mk rk rels) :: (w.states sid).entries))
    key mty (manyBuild ⟨key, some p2, mty, mk, rk, fetch⟩) p2 sid
    (manyHolder mk rk rels) hp2' hlook
  have hval2 : manyResolver mk rk rels (some p2) =
      rels.filter (fun r => rk r = k2) := by
    simp only [manyResolver, hk2]
    exact grouped_filter rk rels k2
  simp only [Many, hk2, hp2', hhit, happ, hval2]

/-- Witness for C6 at concrete inputs: the bound parent `0` of `wOne` with
join key `0` gets exactly the fetched relations keyed `0`, in fetch order,
with one Build. -/
theorem claim_C6_witness :
    (Many wOne ⟨"k", some 0, 7, mkId, rkId, fetchTwo⟩).result =
      .ok ([0, 3, 0].filter (fun r => rkId r = 0)) ∧
    (Many wOne ⟨"k", some 0, 7, mkId, rkId, fetchTwo⟩).builds = 1 := by
  have h := claim_C6 wOne "k" 7 0 0 mkId rkId fetchTwo [0, 3, 0] 0
    rfl rfl rfl rfl rfl
  exact ⟨h.1, h.2.1⟩

/-- **C10.** For a non-nil parent, the absent-join-key short circuit of
`Many`/`One` is checked before the bound-state check: an unbound parent
with an absent key silently yields the empty result and no error, while an
unbound parent with a present key yields the NotInitialized error. -/
theorem claim_C10 (w : World) (m : Nat) (key : String) (mty : Nat)
    (mk : GoModel → Option JoinKey) (rk : Relation → JoinKey)
    (fetch : List JoinKey → Except LErr (List Relation)) :
    (mk (some m) = none →
      Many w ⟨key, some m, mty, mk, rk, fetch⟩ = ⟨.ok [], w, 0⟩ ∧
      One w ⟨key, some m, mty, mk, rk, fetch⟩ = (.ok 0, w, 0)) ∧
    (∀ k, mk (some m) = some k → w.handles m = none →
      Many w ⟨key, some m, mty, mk, rk, fetch⟩ = ⟨.error .noLoader, w, 0⟩ ∧
      One w ⟨key, some m, mty, mk, rk, fetch⟩ = (.error .noLoader, w, 0)) := by
  constructor
  · intro hmk
    have hmany : Many w ⟨key, some m, mty, mk, rk, fetch⟩ = ⟨.ok [], w, 0⟩ := by
      simp only [Many, hmk]
    exact ⟨hmany, by simp only [One, hmany]⟩
  · intro k hmk hb
    have hmany : Many w ⟨key, some m, mty, mk, rk, fetch⟩ =
        ⟨.error .noLoader, w, 0⟩ := by
      simp only [Many, hmk, hb]
    exact ⟨hmany, by simp only [One, hmany]⟩

/-- Witness for C10: in the empty world `w0`, the unbound model `0` with the
always-absent ModelKey yields empty results with no error from both `Many`
and `One`; with the identity ModelKey it yields the NotInitialized error. -/
theorem claim_C10_witness :
    (Many w0 ⟨"k", some 0, 7, mkNone, rkId, fetchTwo⟩ = ⟨.ok [], w0, 0⟩ ∧
      One w0 ⟨"k", some 0, 7, mkNone, rkId, fetchTwo⟩ = (.ok 0, w0, 0)) ∧
    (Many w0 ⟨"k", some 0, 7, mkId, rkId, fetchTwo⟩ =
        ⟨.error .noLoader, w0, 0⟩ ∧
      One w0 ⟨"k", some 0, 7, mkId, rkId, fetchTwo⟩ =
        (.error .noLoader, w0, 0)) :=
  ⟨(claim_C10 w0 0 "k" 7 mkNone rkId fetchTwo).1 rfl,
    (claim_C10 w0 0 "k" 7 mkId rkId fetchTwo).2 0 rfl rfl⟩

end Lode
